import Mathlib

/-!
Verification development for the SalinTranslate live voice-translation app.
The definitions below are a shallow embedding of the conversation state
machine, playback scheduler, transcript/mood aggregator and PCM codec found
in src/App.tsx and src/unnamed/part_000 (two revisions of the same App
component) and src/components/Transcript.tsx.
-/

namespace Salin

/-- Conversation states, from types.ts as used by both App variants. -/
inductive AppState
  | IDLE
  | CONNECTING
  | LISTENING
  | SPEAKING
  | STANDBY
  | SLEEP
  | ERROR
  deriving DecidableEq

/-- Mood values, the six known bracketed tags plus NEUTRAL default. -/
inductive Mood
  | HAPPY
  | SAD
  | SURPRISED
  | ANGRY
  | THINKING
  | NEUTRAL
  deriving DecidableEq

/-- Transcript entry roles. -/
inductive Role
  | user
  | model
  deriving DecidableEq

/-- A transcript entry as appended in the turnComplete branch:
role, text, timestamp. -/
structure TranscriptEntry where
  role : Role
  text : List Char
  timestamp : Int
  deriving DecidableEq

/-- An AudioBufferSourceNode as the scheduler sees it: whether start() was
called, whether playback ended naturally, whether stop() was requested, and
the time passed to start(). -/
structure SourceNode where
  started : Bool
  ended : Bool
  stopRequested : Bool
  scheduledStart : ℚ
  deriving DecidableEq

/-- The mutable state of the App component relevant to the core:
React state (state, mood, transcripts, errorMessage) and the refs
(currentInputTranscription, currentOutputTranscription, sourcesRef,
nextStartTimeRef). -/
structure AppFull where
  state : AppState
  mood : Mood
  transcripts : List TranscriptEntry
  errorMessage : Option (List Char)
  currentInputTranscription : List Char
  currentOutputTranscription : List Char
  sources : List SourceNode
  nextStartTime : ℚ
  deriving DecidableEq

/-- JavaScript whitespace characters handled by String.prototype.trim
(ASCII subset). -/
def isJsWhitespace (c : Char) : Bool :=
  c = ' ' || c = '\t' || c = '\n' || c = '\r' || c = '\x0b' || c = '\x0c'

/-- Drop leading whitespace. -/
def trimLeft : List Char → List Char
  | [] => []
  | c :: cs => if isJsWhitespace c then trimLeft cs else c :: cs

/-- Drop trailing whitespace. -/
def trimRight (s : List Char) : List Char :=
  (trimLeft s.reverse).reverse

/-- JavaScript String.prototype.trim on a character list. -/
def trim (s : List Char) : List Char :=
  trimRight (trimLeft s)

/-- The bracketed tag text for each mood, as in the regex
on the outputTranscription branch. -/
def moodTag : Mood → List Char
  | .HAPPY => "[HAPPY]".data
  | .SAD => "[SAD]".data
  | .SURPRISED => "[SURPRISED]".data
  | .ANGRY => "[ANGRY]".data
  | .THINKING => "[THINKING]".data
  | .NEUTRAL => "[NEUTRAL]".data

/-- The regex alternation order HAPPY|SAD|SURPRISED|ANGRY|THINKING|NEUTRAL. -/
def moodAlternatives : List Mood :=
  [.HAPPY, .SAD, .SURPRISED, .ANGRY, .THINKING, .NEUTRAL]

/-- Which mood tag (if any) matches at the head of the string. -/
def matchTagAt (s : List Char) : Option Mood :=
  moodAlternatives.find? (fun m => (moodTag m).isPrefixOf s)

/-- Leftmost regex match of the mood-tag alternation: returns the text
before the tag, the mood, and the text after the tag. -/
def findMoodSplit : List Char → Option (List Char × Mood × List Char)
  | [] => none
  | c :: cs =>
    match matchTagAt (c :: cs) with
    | some m => some ([], m, (c :: cs).drop (moodTag m).length)
    | none =>
      match findMoodSplit cs with
      | some (pre, m, suf) => some (c :: pre, m, suf)
      | none => none

/-- The outputTranscription branch: on a mood-tag match, set the mood and
append the fragment with the matched tag removed and the result trimmed;
otherwise append the fragment unchanged. -/
def processOutputFragment (mood : Mood) (acc text : List Char) :
    Mood × List Char :=
  match findMoodSplit text with
  | some (pre, m, suf) => (m, acc ++ trim (pre ++ suf))
  | none => (mood, acc ++ text)

/-- JavaScript String.prototype.toLowerCase on a character list. -/
def lower (s : List Char) : List Char :=
  s.map Char.toLower

/-- JavaScript String.prototype.includes: substring containment. -/
def containsSub : List Char → List Char → Bool
  | [], needle => needle.isPrefixOf []
  | c :: t, needle => needle.isPrefixOf (c :: t) || containsSub t needle

/-- Sleep trigger phrase checked on the inputTranscription branch. -/
def thankYouSalin : List Char := "thank you salin".data

/-- Sleep trigger phrase checked on the inputTranscription branch. -/
def salamatSalin : List Char := "salamat salin".data

/-- Web Audio AudioScheduledSourceNode.stop: throws InvalidStateError iff
the node was never started; stopping a started node (even one that already
ended or was already stopped) succeeds and records the stop. -/
def stopNode (s : SourceNode) : Except (List Char) SourceNode :=
  if s.started then .ok { s with stopRequested := true }
  else .error "InvalidStateError".data

/-- part_000 lines 64 and 199: sources.forEach(source => source.stop())
with no try/catch — the first throw propagates to the caller. -/
def stopAllSources : List SourceNode → Except (List Char) (List SourceNode)
  | [] => .ok []
  | s :: rest =>
    match stopNode s with
    | .error e => .error e
    | .ok s2 =>
      match stopAllSources rest with
      | .error e => .error e
      | .ok rest2 => .ok (s2 :: rest2)

/-- App.tsx lines 54-56 and 196: try { source.stop() } catch(e) {} —
a throw is swallowed and the node left as it was. -/
def stopNodeCaught (s : SourceNode) : SourceNode :=
  match stopNode s with
  | .ok s2 => s2
  | .error _ => s

/-- App.tsx force-stop of every live source, each stop individually caught. -/
def stopAllSourcesCaught (l : List SourceNode) : List SourceNode :=
  l.map stopNodeCaught

/-- The pending setTimeout callbacks the handlers create. -/
inductive TimerAction
  | forceSleepStop
  | wakeFromSleep
  | listenDebounce
  deriving DecidableEq

/-- Environment read by a handler invocation: the output AudioContext
currentTime and Date.now(). -/
structure Env where
  ctxTime : ℚ
  now : Int
  deriving DecidableEq

/-- A serverContent message: any combination of output transcription,
input transcription, inline audio (its decoded chunk duration), the
turnComplete flag and the interrupted flag. -/
structure ServerMessage where
  outputTranscription : Option (List Char)
  inputTranscription : Option (List Char)
  audioData : Option ℚ
  turnComplete : Bool
  interrupted : Bool
  deriving DecidableEq

/-- stopConversation (part_000 lines 51-77): close session and contexts,
force-stop all live sources (uncaught), clear the set; then either enter
SLEEP and schedule the 5000 ms wake timer (forceSleep) or go to IDLE with
mood NEUTRAL. It does not touch nextStartTime, the accumulators, the
transcripts or the error message. -/
def stopConversation (forceSleep : Bool) (st : AppFull) :
    Except (List Char) (AppFull × List (Nat × TimerAction)) :=
  match stopAllSources st.sources with
  | .error e => .error e
  | .ok _ =>
    let st2 := { st with sources := ([] : List SourceNode) }
    if forceSleep then
      .ok ({ st2 with state := .SLEEP }, [(5000, .wakeFromSleep)])
    else
      .ok ({ st2 with state := .IDLE, mood := .NEUTRAL }, [])

/-- The outputTranscription branch of onmessage (part_000 lines 135-144). -/
def outputBranch (st : AppFull) (text : List Char) : AppFull :=
  let r := processOutputFragment st.mood st.currentOutputTranscription text
  { st with mood := r.1, currentOutputTranscription := r.2 }

/-- The inputTranscription branch of onmessage (part_000 lines 145-153):
append the fragment, signal LISTENING, and if the lower-cased fragment
contains a trigger phrase, schedule stopConversation(true) in 3000 ms. -/
def inputBranch (st : AppFull) (text : List Char) :
    AppFull × List (Nat × TimerAction) :=
  let st2 := { st with
    currentInputTranscription := st.currentInputTranscription ++ text,
    state := AppState.LISTENING }
  if containsSub (lower text) salamatSalin
      || containsSub (lower text) thankYouSalin then
    (st2, [(3000, .forceSleepStop)])
  else
    (st2, [])

/-- The turnComplete branch of onmessage (part_000 lines 155-169): append a
model entry when the trimmed output accumulator is non-empty, reset both
accumulators, and force LISTENING when no sources are live. -/
def turnCompleteBranch (st : AppFull) (now : Int) : AppFull :=
  let output := trim st.currentOutputTranscription
  let st2 := { st with
    transcripts :=
      if output = [] then st.transcripts
      else st.transcripts
        ++ [{ role := .model, text := output, timestamp := now }],
    currentInputTranscription := ([] : List Char),
    currentOutputTranscription := ([] : List Char) }
  if st2.sources = [] then { st2 with state := AppState.LISTENING } else st2

/-- The audioData branch of onmessage (part_000 lines 171-196): enter
SPEAKING, lift the cursor to the clock (nextStartTime := max nextStartTime
ctx.currentTime), start the source at that cursor value, advance the cursor
by the chunk duration, and register the source in the live set. -/
def audioBranch (st : AppFull) (ctxTime d : ℚ) : AppFull :=
  let startT := max st.nextStartTime ctxTime
  { st with
    state := AppState.SPEAKING,
    nextStartTime := startT + d,
    sources := st.sources
      ++ [{ started := true, ended := false, stopRequested := false,
            scheduledStart := startT }] }

/-- The interrupted branch of onmessage (part_000 lines 198-204): force-stop
every live source (uncaught), clear the set, reset the cursor to 0, go to
LISTENING and reset the mood to NEUTRAL. -/
def interruptedBranch (st : AppFull) : Except (List Char) AppFull :=
  match stopAllSources st.sources with
  | .error e => .error e
  | .ok _ =>
    .ok { st with
      sources := ([] : List SourceNode),
      nextStartTime := 0,
      state := AppState.LISTENING,
      mood := Mood.NEUTRAL }

/-- The interrupted branch in the App.tsx variant (lines 195-200): stops are
individually caught, the set is cleared, the cursor reset to 0 and the state
set to LISTENING — the mood is not touched. -/
def interruptedBranchApp (st : AppFull) : AppFull :=
  let _stopped := stopAllSourcesCaught st.sources
  { st with
    sources := ([] : List SourceNode),
    nextStartTime := 0,
    state := AppState.LISTENING }

/-- The first stage of onmessage: the outputTranscription branch, else the
inputTranscription branch (if/else-if in the source), then the turnComplete
block. -/
def preAudio (msg : ServerMessage) (env : Env) (st : AppFull) :
    AppFull × List (Nat × TimerAction) :=
  let r :=
    match msg.outputTranscription with
    | some text => (outputBranch st text, ([] : List (Nat × TimerAction)))
    | none =>
      match msg.inputTranscription with
      | some text => inputBranch st text
      | none => (st, [])
  if msg.turnComplete then (turnCompleteBranch r.1 env.now, r.2) else r

/-- onmessage (part_000 lines 132-205): output/input elif, turnComplete
block, audioData block, interrupted block, in source order. -/
def handleMessage (msg : ServerMessage) (env : Env) (st : AppFull) :
    Except (List Char) (AppFull × List (Nat × TimerAction)) :=
  let r := preAudio msg env st
  let st3 :=
    match msg.audioData with
    | some d => audioBranch r.1 env.ctxTime d
    | none => r.1
  if msg.interrupted then
    match interruptedBranch st3 with
    | .error e => .error e
    | .ok st4 => .ok (st4, r.2)
  else
    .ok (st3, r.2)

/-- The ended listener of a playback source (part_000 lines 181-191):
remove the source; when the set becomes empty, schedule the 500 ms
return-to-listening debounce. -/
def handleSourceEnded (i : Nat) (st : AppFull) :
    AppFull × List (Nat × TimerAction) :=
  let sources2 := st.sources.eraseIdx i
  ({ st with sources := sources2 },
   if sources2 = [] then [(500, .listenDebounce)] else [])

/-- Firing a pending timer: the 3000 ms trigger timer runs
stopConversation(true); the 5000 ms sleep timer moves SLEEP to IDLE and
resets the mood; the 500 ms debounce returns to LISTENING with mood
NEUTRAL when the set is still empty and the state is not SLEEP. -/
def fireTimer (a : TimerAction) (st : AppFull) :
    Except (List Char) (AppFull × List (Nat × TimerAction)) :=
  match a with
  | .forceSleepStop => stopConversation true st
  | .wakeFromSleep =>
    .ok ({ st with state := AppState.IDLE, mood := Mood.NEUTRAL }, [])
  | .listenDebounce =>
    if st.sources = [] ∧ st.state ≠ AppState.SLEEP then
      .ok ({ st with state := AppState.LISTENING, mood := Mood.NEUTRAL }, [])
    else
      .ok (st, [])

/-- onclose (part_000 lines 211-213): go to IDLE unless in SLEEP; nothing
else — in particular no error message is set. -/
def handleClose (st : AppFull) : AppFull :=
  if st.state = AppState.SLEEP then st
  else { st with state := AppState.IDLE }

/-- onerror (part_000 lines 206-210): show the error message and go to
ERROR. -/
def handleChannelError (st : AppFull) : AppFull :=
  { st with
    errorMessage := some "Connection failed.".data,
    state := AppState.ERROR }

/-- The events that mutate the modelled state. -/
inductive Event
  | message (msg : ServerMessage) (env : Env)
  | sourceEnded (i : Nat)
  | fire (a : TimerAction)
  | close
  | channelError
  | clearTranscripts
  | stopButton
  | startPressed
  | opened
  | startFailed (m : List Char)

/-- One dispatch of an event against the current state, returning the new
state and any setTimeout callbacks it registered. -/
def step (e : Event) (st : AppFull) :
    Except (List Char) (AppFull × List (Nat × TimerAction)) :=
  match e with
  | .message msg env => handleMessage msg env st
  | .sourceEnded i => .ok (handleSourceEnded i st)
  | .fire a => fireTimer a st
  | .close => .ok (handleClose st, [])
  | .channelError => .ok (handleChannelError st, [])
  | .clearTranscripts => .ok ({ st with transcripts := [] }, [])
  | .stopButton => stopConversation false st
  | .startPressed =>
    .ok ({ st with state := AppState.CONNECTING, errorMessage := none }, [])
  | .opened => .ok ({ st with state := AppState.LISTENING }, [])
  | .startFailed m =>
    .ok ({ st with errorMessage := some m, state := AppState.ERROR }, [])

/-- The initial component state. -/
def initState : AppFull :=
  { state := AppState.IDLE,
    mood := Mood.NEUTRAL,
    transcripts := [],
    errorMessage := none,
    currentInputTranscription := [],
    currentOutputTranscription := [],
    sources := [],
    nextStartTime := 0 }

/-- Run a sequence of events from a state; an uncaught throw aborts. -/
def run : List Event → AppFull → Except (List Char) AppFull
  | [], st => .ok st
  | e :: es, st =>
    match step e st with
    | .error er => .error er
    | .ok r => run es r.1

/-- One scheduling decision of the playback scheduler on a chunk
(arrival clock time, duration): the chunk's start time and the new cursor. -/
def schedStep (next : ℚ) (chunk : ℚ × ℚ) : ℚ × ℚ :=
  (max next chunk.1, max next chunk.1 + chunk.2)

/-- The start times the scheduler computes for a sequence of chunks. -/
def schedStarts (next : ℚ) : List (ℚ × ℚ) → List ℚ
  | [] => []
  | chunk :: rest =>
    (schedStep next chunk).1 :: schedStarts (schedStep next chunk).2 rest

/-- Timely delivery: each chunk after the first arrives no later than the
end time (cursor value) left by its predecessor. -/
def timely (next : ℚ) : List (ℚ × ℚ) → Bool
  | [] => true
  | chunk :: rest =>
    (match rest with
     | [] => true
     | chunk2 :: _ => decide (chunk2.1 ≤ (schedStep next chunk).2))
    && timely (schedStep next chunk).2 rest

/-- Modelled from the spec: the PCM codec lives in services/audioUtils
(createPcmBlob, decode, decodeAudioData), which is not under src/.
Encode direction per the spec: scale a normalized sample by 32768 and clamp
to the signed 16-bit representable range. -/
def encodeSample (s : ℚ) : ℤ :=
  max (-32768) (min 32767 ⌊s * 32768⌋)

/-- Modelled from the spec: decode direction, sample / 32768.0. -/
def decodeSample (i : ℤ) : ℚ :=
  (i : ℚ) / 32768

/-- Modelled from the spec: pack a signed 16-bit integer as two
little-endian bytes. -/
def int16ToBytesLE (i : ℤ) : ℤ × ℤ :=
  (i % 65536 % 256, i % 65536 / 256)

/-- Modelled from the spec: read two little-endian bytes back as a signed
16-bit integer. -/
def bytesToInt16LE (b : ℤ × ℤ) : ℤ :=
  let u := b.1 + 256 * b.2
  if u < 32768 then u else u - 65536

/-- Bool test for the model role. -/
def isModelRole : Role → Bool
  | .model => true
  | .user => false

/-- Transcript.tsx line 22: entries.filter(entry => entry.role === model). -/
def translationsView (entries : List TranscriptEntry) : List TranscriptEntry :=
  entries.filter (fun en => isModelRole en.role)

/-- Bool observer for Except success. -/
def exceptIsOk {α β : Type} : Except α β → Bool
  | .ok _ => true
  | .error _ => false

end Salin

namespace Salin

/-! ### Whitespace and trim lemmas -/

theorem trimLeft_eq_nil_iff (s : List Char) :
    trimLeft s = [] ↔ ∀ c ∈ s, isJsWhitespace c = true := by
  induction s with
  | nil => simp [trimLeft]
  | cons c cs ih =>
    cases hw : isJsWhitespace c with
    | true => simp [trimLeft, hw, ih]
    | false => simp [trimLeft, hw]

theorem trimLeft_forall_ws (s : List Char) :
    (∀ c ∈ trimLeft s, isJsWhitespace c = true)
      ↔ (∀ c ∈ s, isJsWhitespace c = true) := by
  induction s with
  | nil => simp [trimLeft]
  | cons c cs ih =>
    cases hw : isJsWhitespace c with
    | true => simp [trimLeft, hw, ih]
    | false => simp [trimLeft, hw]

theorem trim_eq_nil_iff (s : List Char) :
    trim s = [] ↔ ∀ c ∈ s, isJsWhitespace c = true := by
  unfold trim trimRight
  rw [List.reverse_eq_nil_iff, trimLeft_eq_nil_iff]
  constructor
  · intro h
    rw [← trimLeft_forall_ws]
    intro c hc
    exact h c (List.mem_reverse.mpr hc)
  · intro h c hc
    exact (trimLeft_forall_ws s).mpr h c (List.mem_reverse.mp hc)

/-! ### C4: turn completion -/

/-- A serverContent message carrying only the turnComplete flag. -/
def msgTurnOnly : ServerMessage :=
  { outputTranscription := none, inputTranscription := none,
    audioData := none, turnComplete := true, interrupted := false }

theorem turnCompleteBranch_input (st : AppFull) (now : Int) :
    (turnCompleteBranch st now).currentInputTranscription = [] := by
  unfold turnCompleteBranch
  dsimp only
  split <;> rfl

theorem turnCompleteBranch_output (st : AppFull) (now : Int) :
    (turnCompleteBranch st now).currentOutputTranscription = [] := by
  unfold turnCompleteBranch
  dsimp only
  split <;> rfl

theorem turnCompleteBranch_transcripts (st : AppFull) (now : Int) :
    (turnCompleteBranch st now).transcripts
      = if trim st.currentOutputTranscription = [] then st.transcripts
        else st.transcripts
          ++ [{ role := .model, text := trim st.currentOutputTranscription,
                timestamp := now }] := by
  unfold turnCompleteBranch
  dsimp only
  split <;> rfl

/-- C4: on a turn-complete event, an all-whitespace output accumulator (its
trim is empty) appends nothing; a non-empty trim appends exactly one entry
with role model and the trimmed text; in both cases both accumulators are
empty immediately afterwards. -/
theorem salin_C4_turn_complete (st : AppFull) (env : Env) :
    step (Event.message msgTurnOnly env) st
        = .ok (turnCompleteBranch st env.now, []) ∧
    (turnCompleteBranch st env.now).currentInputTranscription = [] ∧
    (turnCompleteBranch st env.now).currentOutputTranscription = [] ∧
    (trim st.currentOutputTranscription = []
        ↔ ∀ c ∈ st.currentOutputTranscription, isJsWhitespace c = true) ∧
    (trim st.currentOutputTranscription = [] →
        (turnCompleteBranch st env.now).transcripts = st.transcripts) ∧
    (trim st.currentOutputTranscription ≠ [] →
        (turnCompleteBranch st env.now).transcripts
          = st.transcripts
            ++ [{ role := .model, text := trim st.currentOutputTranscription,
                  timestamp := env.now }]) := by
  refine ⟨rfl, turnCompleteBranch_input st env.now,
    turnCompleteBranch_output st env.now,
    trim_eq_nil_iff st.currentOutputTranscription, ?_, ?_⟩
  · intro h
    rw [turnCompleteBranch_transcripts, if_pos h]
  · intro h
    rw [turnCompleteBranch_transcripts, if_neg h]

/-- Concrete run of the turn-complete branch on an accumulator with
surrounding whitespace. -/
def stC4 : AppFull :=
  { initState with currentOutputTranscription := "  Kumusta ka?  ".data }

theorem salin_C4_witness :
    (turnCompleteBranch stC4 7).transcripts
      = [{ role := Role.model, text := "Kumusta ka?".data, timestamp := 7 }] := by
  have h := salin_C4_turn_complete stC4 { ctxTime := 0, now := 7 }
  exact (h.2.2.2.2.2 (by decide)).trans (by decide)

/-! ### C8: unexpected channel close -/

/-- C8: the close handler goes to IDLE unless the state is SLEEP, never
touches the error message, and in SLEEP leaves the state untouched. -/
theorem salin_C8_unexpected_close (st : AppFull) :
    step Event.close st = .ok (handleClose st, []) ∧
    (handleClose st).errorMessage = st.errorMessage ∧
    (st.state = AppState.SLEEP → handleClose st = st) ∧
    (st.state ≠ AppState.SLEEP →
        handleClose st = { st with state := AppState.IDLE }) := by
  refine ⟨rfl, ?_, ?_, ?_⟩
  · unfold handleClose; split <;> rfl
  · intro h; simp [handleClose, h]
  · intro h; simp [handleClose, h]

theorem salin_C8_witness :
    handleClose { initState with state := AppState.SPEAKING }
        = { initState with state := AppState.IDLE } ∧
    (handleClose { initState with state := AppState.SPEAKING }).errorMessage
        = none := by
  have h := salin_C8_unexpected_close { initState with state := AppState.SPEAKING }
  exact ⟨(h.2.2.2 (by decide)).trans (by decide), h.2.1⟩

end Salin

namespace Salin

/-! ### Mood-tag scanning lemmas (C5) -/

theorem isPrefixOf_append_drop :
    ∀ (p l : List Char), p.isPrefixOf l = true → l = p ++ l.drop p.length := by
  intro p
  induction p with
  | nil => intro l _; simp
  | cons a p ih =>
    intro l h
    cases l with
    | nil => simp [List.isPrefixOf] at h
    | cons b l2 =>
      simp only [List.isPrefixOf, Bool.and_eq_true, beq_iff_eq] at h
      obtain ⟨hab, h2⟩ := h
      have := ih l2 h2
      simp [hab, List.length_cons, List.drop_succ_cons]
      exact this

theorem isPrefixOf_append_self :
    ∀ (p r : List Char), p.isPrefixOf (p ++ r) = true := by
  intro p
  induction p with
  | nil => intro r; simp [List.isPrefixOf]
  | cons a p ih => intro r; simp [List.isPrefixOf, ih]

theorem mem_moodAlternatives (m : Mood) : m ∈ moodAlternatives := by
  cases m <;> simp [moodAlternatives]

theorem matchTagAt_isSome (m : Mood) (suf : List Char) :
    ∃ m2, matchTagAt (moodTag m ++ suf) = some m2 := by
  have h : (matchTagAt (moodTag m ++ suf)).isSome = true := by
    unfold matchTagAt
    rw [List.find?_isSome]
    exact ⟨m, mem_moodAlternatives m, isPrefixOf_append_self (moodTag m) suf⟩
  cases h2 : matchTagAt (moodTag m ++ suf) with
  | none => rw [h2] at h; simp at h
  | some m2 => exact ⟨m2, rfl⟩

theorem matchTagAt_some (s : List Char) (m : Mood)
    (h : matchTagAt s = some m) : (moodTag m).isPrefixOf s = true := by
  unfold matchTagAt at h
  have h2 := List.find?_some h
  simpa using h2

theorem moodTag_ne_nil (m : Mood) : moodTag m ≠ [] := by
  cases m <;> decide

theorem findMoodSplit_some_decomp :
    ∀ (text pre suf : List Char) (m : Mood),
      findMoodSplit text = some (pre, m, suf) →
      text = pre ++ moodTag m ++ suf := by
  intro text
  induction text with
  | nil => intro pre suf m h; simp [findMoodSplit] at h
  | cons c cs ih =>
    intro pre suf m h
    rw [findMoodSplit] at h
    cases hm : matchTagAt (c :: cs) with
    | some m0 =>
      rw [hm] at h
      simp only [Option.some.injEq, Prod.mk.injEq] at h
      obtain ⟨hpre, hmm, hsuf⟩ := h
      rw [← hpre, ← hmm, ← hsuf]
      simpa using isPrefixOf_append_drop (moodTag m0) (c :: cs)
        (matchTagAt_some _ _ hm)
    | none =>
      rw [hm] at h
      cases hf : findMoodSplit cs with
      | none => rw [hf] at h; simp at h
      | some r =>
        obtain ⟨p0, m0, s0⟩ := r
        rw [hf] at h
        simp only [Option.some.injEq, Prod.mk.injEq] at h
        obtain ⟨hpre, hmm, hsuf⟩ := h
        rw [← hpre, ← hmm, ← hsuf]
        have := ih p0 s0 m0 hf
        simp [this]

theorem findMoodSplit_leftmost :
    ∀ (text pre suf : List Char) (m : Mood),
      findMoodSplit text = some (pre, m, suf) →
      ∀ (p2 s2 : List Char) (m2 : Mood),
        text = p2 ++ moodTag m2 ++ s2 → pre.length ≤ p2.length := by
  intro text
  induction text with
  | nil => intro pre suf m h; simp [findMoodSplit] at h
  | cons c cs ih =>
    intro pre suf m h p2 s2 m2 heq
    rw [findMoodSplit] at h
    cases hm : matchTagAt (c :: cs) with
    | some m0 =>
      rw [hm] at h
      simp only [Option.some.injEq, Prod.mk.injEq] at h
      obtain ⟨hpre, _, _⟩ := h
      subst hpre
      simp
    | none =>
      rw [hm] at h
      cases hf : findMoodSplit cs with
      | none => rw [hf] at h; simp at h
      | some r =>
        obtain ⟨p0, m0, s0⟩ := r
        rw [hf] at h
        simp only [Option.some.injEq, Prod.mk.injEq] at h
        obtain ⟨hpre, hmm, hsuf⟩ := h
        cases p2 with
        | nil =>
          simp only [List.nil_append] at heq
          obtain ⟨mw, hw⟩ := matchTagAt_isSome m2 s2
          rw [← heq] at hw
          rw [hw] at hm
          cases hm
        | cons d p2t =>
          simp only [List.cons_append, List.cons.injEq] at heq
          obtain ⟨_, heq2⟩ := heq
          have h3 := ih p0 s0 m0 hf p2t s2 m2 heq2
          rw [← hpre]
          simpa using h3

theorem findMoodSplit_isSome_of_decomp :
    ∀ (p2 s2 : List Char) (m2 : Mood),
      ∃ r, findMoodSplit (p2 ++ moodTag m2 ++ s2) = some r := by
  intro p2
  induction p2 with
  | nil =>
    intro s2 m2
    simp only [List.nil_append]
    obtain ⟨mw, hw⟩ := matchTagAt_isSome m2 s2
    cases hne : moodTag m2 ++ s2 with
    | nil =>
      exact absurd (List.append_eq_nil.mp hne).1 (moodTag_ne_nil m2)
    | cons c cs =>
      rw [hne] at hw
      rw [findMoodSplit, hw]
      exact ⟨_, rfl⟩
  | cons d p2t ih =>
    intro s2 m2
    simp only [List.cons_append]
    rw [findMoodSplit]
    cases hm : matchTagAt (d :: (p2t ++ moodTag m2 ++ s2)) with
    | some m0 => exact ⟨_, rfl⟩
    | none =>
      obtain ⟨r, hr⟩ := ih s2 m2
      rw [hr]
      obtain ⟨p0, m0, s0⟩ := r
      exact ⟨_, rfl⟩

end Salin

namespace Salin

/-! ### C5: mood-tag extraction -/

/-- C5 (amended): when the fragment contains a mood tag, the scanner picks
the leftmost tag occurrence, the mood is set exactly once to that tag, and
the fragment is appended with the tag removed and the remainder trimmed of
leading and trailing whitespace (interior text preserved); a fragment with
no tag occurrence is appended unchanged and leaves the mood unchanged. -/
theorem salin_C5_mood_tag (mood : Mood) (acc text pre suf : List Char)
    (m : Mood) :
    (findMoodSplit text = some (pre, m, suf) →
      text = pre ++ moodTag m ++ suf ∧
      (∀ (p2 s2 : List Char) (m2 : Mood),
        text = p2 ++ moodTag m2 ++ s2 → pre.length ≤ p2.length) ∧
      processOutputFragment mood acc text = (m, acc ++ trim (pre ++ suf))) ∧
    (findMoodSplit text = none →
      (∀ (p2 s2 : List Char) (m2 : Mood),
        text = p2 ++ moodTag m2 ++ s2 → False) ∧
      processOutputFragment mood acc text = (mood, acc ++ text)) := by
  constructor
  · intro h
    refine ⟨findMoodSplit_some_decomp text pre suf m h,
      findMoodSplit_leftmost text pre suf m h, ?_⟩
    unfold processOutputFragment
    rw [h]
  · intro h
    constructor
    · intro p2 s2 m2 heq
      obtain ⟨r, hr⟩ := findMoodSplit_isSome_of_decomp p2 s2 m2
      rw [← heq] at hr
      rw [hr] at h
      cases h
    · unfold processOutputFragment
      rw [h]

/-- C5 counterexample: for the fragment given below, the text outside the
tag is the string with a leading space, but the accumulator receives the
trimmed string without it — the text outside the tag is not preserved
verbatim. -/
theorem salin_C5_counterexample :
    findMoodSplit ("[HAPPY] hi".data) = some ([], Mood.HAPPY, " hi".data) ∧
    processOutputFragment Mood.NEUTRAL [] ("[HAPPY] hi".data)
        = (Mood.HAPPY, "hi".data) ∧
    decide (("hi".data : List Char) = " hi".data) = false := by
  refine ⟨by decide, by decide, by decide⟩

theorem salin_C5_witness :
    processOutputFragment Mood.NEUTRAL ("x".data) ("ab[SAD] cd".data)
        = (Mood.SAD, "xab cd".data) := by
  have h := (salin_C5_mood_tag Mood.NEUTRAL ("x".data) ("ab[SAD] cd".data)
    ("ab".data) (" cd".data) Mood.SAD).1 (by decide)
  exact h.2.2.trans (by decide)

/-! ### C1: gapless playback scheduling -/

/-- A serverContent message carrying only an audio chunk. -/
def msgAudioOnly (d : ℚ) : ServerMessage :=
  { outputTranscription := none, inputTranscription := none,
    audioData := some d, turnComplete := false, interrupted := false }

theorem schedStarts_cons (next : ℚ) (chunk : ℚ × ℚ) (rest : List (ℚ × ℚ)) :
    schedStarts next (chunk :: rest)
      = (max next chunk.1) :: schedStarts (max next chunk.1 + chunk.2) rest := by
  rfl

/-- The gapless-concatenation induction: with nonnegative durations and
timely delivery, consecutive start times chain by the predecessor duration
and are non-decreasing. -/
theorem sched_gapless :
    ∀ (chunks : List (ℚ × ℚ)) (next : ℚ),
      (∀ c ∈ chunks, 0 ≤ c.2) → timely next chunks = true →
      ((schedStarts next chunks).zip chunks).Chain'
          (fun p q => q.1 = p.1 + p.2.2) ∧
      (schedStarts next chunks).Chain' (fun x y => x ≤ y) := by
  intro chunks
  induction chunks with
  | nil => intro next _ _; simp [schedStarts]
  | cons a rest ih =>
    intro next hd ht
    cases rest with
    | nil => simp [schedStarts, schedStep]
    | cons b rest2 =>
      rw [timely] at ht
      simp only [Bool.and_eq_true, decide_eq_true_eq] at ht
      obtain ⟨hb, ht2⟩ := ht
      have hd2 : ∀ c ∈ b :: rest2, 0 ≤ c.2 := by
        intro c hc; exact hd c (List.mem_cons_of_mem a hc)
      have hda : 0 ≤ a.2 := hd a (List.mem_cons_self a _)
      obtain ⟨ihz, ihm⟩ := ih (schedStep next a).2 hd2 ht2
      have hhead : max (schedStep next a).2 b.1 = (schedStep next a).2 :=
        max_eq_left hb
      constructor
      · rw [schedStarts_cons, schedStarts_cons]
        rw [schedStarts_cons] at ihz
        simp only [List.zip_cons_cons] at ihz ⊢
        apply List.Chain'.cons
        · show max (schedStep next a).2 b.1 = max next a.1 + a.2
          rw [hhead]; rfl
        · exact ihz
      · rw [schedStarts_cons, schedStarts_cons]
        rw [schedStarts_cons] at ihm
        apply List.Chain'.cons
        · show max next a.1 ≤ max (schedStep next a).2 b.1
          rw [hhead]
          show max next a.1 ≤ max next a.1 + a.2
          linarith
        · exact ihm

/-- C1: each scheduled chunk starts at max(nextStartTime, clock time), the
cursor then advances to that start plus the duration (shown on the full
message handler), and under timely delivery with nonnegative durations the
start-time sequence chains gaplessly and is non-decreasing. -/
theorem salin_C1_gapless_scheduling (st : AppFull) (env : Env) (d next : ℚ)
    (chunks : List (ℚ × ℚ))
    (hd : ∀ c ∈ chunks, 0 ≤ c.2) (ht : timely next chunks = true) :
    step (Event.message (msgAudioOnly d) env) st
        = .ok (audioBranch st env.ctxTime d, []) ∧
    (audioBranch st env.ctxTime d).sources
        = st.sources
          ++ [{ started := true, ended := false, stopRequested := false,
                scheduledStart := max st.nextStartTime env.ctxTime }] ∧
    (audioBranch st env.ctxTime d).nextStartTime
        = max st.nextStartTime env.ctxTime + d ∧
    ((schedStarts next chunks).zip chunks).Chain'
        (fun p q => q.1 = p.1 + p.2.2) ∧
    (schedStarts next chunks).Chain' (fun x y => x ≤ y) := by
  obtain ⟨hz, hm⟩ := sched_gapless chunks next hd ht
  exact ⟨rfl, rfl, rfl, hz, hm⟩

theorem salin_C1_witness :
    (∀ c ∈ [((0 : ℚ), (0 : ℚ)), (0, 0), (0, 0)], 0 ≤ c.2) ∧
    timely 0 [((0 : ℚ), (0 : ℚ)), (0, 0), (0, 0)] = true ∧
    ((schedStarts 0 [((0 : ℚ), (0 : ℚ)), (0, 0), (0, 0)]).zip
        [((0 : ℚ), (0 : ℚ)), (0, 0), (0, 0)]).Chain'
        (fun p q => q.1 = p.1 + p.2.2) := by
  have h := salin_C1_gapless_scheduling initState { ctxTime := 0, now := 0 }
    1 0 [((0 : ℚ), (0 : ℚ)), (0, 0), (0, 0)] (by simp)
    (by simp [timely, schedStep])
  exact ⟨by simp, by simp [timely, schedStep], h.2.2.2.1⟩

end Salin

namespace Salin

/-! ### C2: cursor monotonicity -/

theorem outputBranch_nextStart (st : AppFull) (text : List Char) :
    (outputBranch st text).nextStartTime = st.nextStartTime := rfl

theorem inputBranch_nextStart (st : AppFull) (text : List Char) :
    (inputBranch st text).1.nextStartTime = st.nextStartTime := by
  unfold inputBranch
  dsimp only
  split <;> rfl

theorem turnCompleteBranch_nextStart (st : AppFull) (now : Int) :
    (turnCompleteBranch st now).nextStartTime = st.nextStartTime := by
  unfold turnCompleteBranch
  dsimp only
  split <;> rfl

theorem preAudio_nextStart (msg : ServerMessage) (env : Env) (st : AppFull) :
    (preAudio msg env st).1.nextStartTime = st.nextStartTime := by
  unfold preAudio
  dsimp only
  cases msg.outputTranscription with
  | some t =>
    cases msg.turnComplete <;>
      simp [turnCompleteBranch_nextStart, outputBranch_nextStart]
  | none =>
    cases msg.inputTranscription with
    | some t =>
      cases msg.turnComplete <;>
        simp [turnCompleteBranch_nextStart, inputBranch_nextStart]
    | none =>
      cases msg.turnComplete <;> simp [turnCompleteBranch_nextStart]

theorem audioBranch_nextStart (st : AppFull) (t d : ℚ) :
    (audioBranch st t d).nextStartTime = max st.nextStartTime t + d := rfl

theorem interruptedBranch_ok (st st4 : AppFull)
    (h : interruptedBranch st = .ok st4) :
    st4 = { st with sources := [], nextStartTime := 0,
                    state := .LISTENING, mood := .NEUTRAL } := by
  unfold interruptedBranch at h
  cases hsa : stopAllSources st.sources <;> rw [hsa] at h
  · cases h
  · simp only [Except.ok.injEq] at h
    exact h.symm

theorem stopConversation_ok (b : Bool) (st st3 : AppFull)
    (tm2 : List (Nat × TimerAction))
    (h : stopConversation b st = .ok (st3, tm2)) :
    st3.nextStartTime = st.nextStartTime ∧
    st3.sources = [] ∧
    st3.transcripts = st.transcripts ∧
    st3.errorMessage = st.errorMessage ∧
    (b = true → st3.state = .SLEEP ∧ st3.mood = st.mood
        ∧ tm2 = [(5000, .wakeFromSleep)]) ∧
    (b = false → st3.state = .IDLE ∧ st3.mood = .NEUTRAL ∧ tm2 = []) := by
  unfold stopConversation at h
  cases hsa : stopAllSources st.sources <;> rw [hsa] at h
  · cases h
  · cases b with
    | true =>
      simp only [if_pos, Except.ok.injEq, Prod.mk.injEq] at h
      obtain ⟨h1, h2⟩ := h
      rw [← h1, ← h2]
      simp
    | false =>
      simp only [Bool.false_eq_true, if_false, Except.ok.injEq,
        Prod.mk.injEq] at h
      obtain ⟨h1, h2⟩ := h
      rw [← h1, ← h2]
      simp

theorem handleMessage_not_interrupted (msg : ServerMessage) (env : Env)
    (st st2 : AppFull) (tm : List (Nat × TimerAction))
    (hni : msg.interrupted = false)
    (h : handleMessage msg env st = .ok (st2, tm)) :
    st2 = (match msg.audioData with
           | some d => audioBranch (preAudio msg env st).1 env.ctxTime d
           | none => (preAudio msg env st).1) ∧
    tm = (preAudio msg env st).2 := by
  unfold handleMessage at h
  rw [hni] at h
  simp only [Bool.false_eq_true, if_false, Except.ok.injEq,
    Prod.mk.injEq] at h
  exact ⟨h.1.symm, h.2.symm⟩

theorem handleMessage_interrupted (msg : ServerMessage) (env : Env)
    (st st2 : AppFull) (tm : List (Nat × TimerAction))
    (hi : msg.interrupted = true)
    (h : handleMessage msg env st = .ok (st2, tm)) :
    st2.nextStartTime = 0 ∧ st2.sources = [] ∧
    st2.state = .LISTENING ∧ st2.mood = .NEUTRAL ∧
    st2.transcripts = (preAudio msg env st).1.transcripts ∧
    tm = (preAudio msg env st).2 := by
  unfold handleMessage at h
  rw [hi] at h
  simp only [if_pos] at h
  cases hib : interruptedBranch
      (match msg.audioData with
       | some d => audioBranch (preAudio msg env st).1 env.ctxTime d
       | none => (preAudio msg env st).1) <;> rw [hib] at h
  · cases h
  · simp only [Except.ok.injEq, Prod.mk.injEq] at h
    obtain ⟨h1, h2⟩ := h
    have h3 := interruptedBranch_ok _ _ hib
    rw [← h1, h3]
    refine ⟨rfl, rfl, rfl, rfl, ?_, h2.symm⟩
    show (match msg.audioData with
          | some d => audioBranch (preAudio msg env st).1 env.ctxTime d
          | none => (preAudio msg env st).1).transcripts
        = (preAudio msg env st).1.transcripts
    cases msg.audioData <;> rfl

/-- Which events carry the interrupted flag. -/
def eventHasInterrupt : Event → Bool
  | .message msg _ => msg.interrupted
  | _ => false

/-- Whether the event's audio chunk (if any) has nonnegative duration. -/
def eventDurNonneg : Event → Bool
  | .message msg _ =>
    match msg.audioData with
    | some d => decide (0 ≤ d)
    | none => true
  | _ => true

/-- C2 (amended): no event without the interrupted flag decreases
nextStartTime; an interrupted message resets it to 0 (not to the playback
clock time); stopConversation — the full stop — leaves it unchanged. -/
theorem salin_C2_cursor_monotone (e : Event) (st st2 st3 : AppFull)
    (tm tm2 : List (Nat × TimerAction)) (b : Bool) :
    (step e st = .ok (st2, tm) → eventDurNonneg e = true →
      (eventHasInterrupt e = false → st.nextStartTime ≤ st2.nextStartTime) ∧
      (eventHasInterrupt e = true → st2.nextStartTime = 0)) ∧
    (stopConversation b st = .ok (st3, tm2) →
      st3.nextStartTime = st.nextStartTime) := by
  constructor
  · intro hstep hdur
    cases e with
    | message msg env =>
      constructor
      · intro hni
        simp only [eventHasInterrupt] at hni
        obtain ⟨h1, _⟩ :=
          handleMessage_not_interrupted msg env st st2 tm hni hstep
        cases ha : msg.audioData with
        | none =>
          rw [ha] at h1
          rw [h1, preAudio_nextStart]
        | some d =>
          rw [ha] at h1
          simp only [eventDurNonneg, ha, decide_eq_true_eq] at hdur
          rw [h1, audioBranch_nextStart, preAudio_nextStart]
          calc st.nextStartTime ≤ max st.nextStartTime env.ctxTime :=
                le_max_left _ _
            _ ≤ max st.nextStartTime env.ctxTime + d :=
                le_add_of_nonneg_right hdur
      · intro hi
        simp only [eventHasInterrupt] at hi
        exact (handleMessage_interrupted msg env st st2 tm hi hstep).1
    | sourceEnded i =>
      refine ⟨fun _ => ?_, fun h => by cases h⟩
      simp only [step, handleSourceEnded, Except.ok.injEq,
        Prod.mk.injEq] at hstep
      rw [← hstep.1]
    | fire a =>
      refine ⟨fun _ => ?_, fun h => by cases h⟩
      cases a with
      | forceSleepStop =>
        simp only [step, fireTimer] at hstep
        rw [(stopConversation_ok true st st2 tm hstep).1]
      | wakeFromSleep =>
        simp only [step, fireTimer, Except.ok.injEq, Prod.mk.injEq] at hstep
        rw [← hstep.1]
      | listenDebounce =>
        simp only [step, fireTimer] at hstep
        split at hstep <;>
          simp only [Except.ok.injEq, Prod.mk.injEq] at hstep <;>
          rw [← hstep.1]
    | close =>
      refine ⟨fun _ => ?_, fun h => by cases h⟩
      simp only [step, Except.ok.injEq, Prod.mk.injEq] at hstep
      rw [← hstep.1]
      unfold handleClose
      split <;> rfl
    | channelError =>
      refine ⟨fun _ => ?_, fun h => by cases h⟩
      simp only [step, handleChannelError, Except.ok.injEq,
        Prod.mk.injEq] at hstep
      rw [← hstep.1]
    | clearTranscripts =>
      refine ⟨fun _ => ?_, fun h => by cases h⟩
      simp only [step, Except.ok.injEq, Prod.mk.injEq] at hstep
      rw [← hstep.1]
    | stopButton =>
      refine ⟨fun _ => ?_, fun h => by cases h⟩
      simp only [step] at hstep
      rw [(stopConversation_ok false st st2 tm hstep).1]
    | startPressed =>
      refine ⟨fun _ => ?_, fun h => by cases h⟩
      simp only [step, Except.ok.injEq, Prod.mk.injEq] at hstep
      rw [← hstep.1]
    | opened =>
      refine ⟨fun _ => ?_, fun h => by cases h⟩
      simp only [step, Except.ok.injEq, Prod.mk.injEq] at hstep
      rw [← hstep.1]
    | startFailed m =>
      refine ⟨fun _ => ?_, fun h => by cases h⟩
      simp only [step, Except.ok.injEq, Prod.mk.injEq] at hstep
      rw [← hstep.1]
  · intro h
    exact (stopConversation_ok b st st3 tm2 h).1

/-- A state whose cursor sits at 5 seconds. -/
def st5 : AppFull := { initState with nextStartTime := 5 }

/-- A serverContent message carrying only the interrupted flag. -/
def msgInterruptOnly : ServerMessage :=
  { outputTranscription := none, inputTranscription := none,
    audioData := none, turnComplete := false, interrupted := true }

/-- The state after the interrupted handler runs on st5. -/
def st5interrupted : AppFull :=
  { st5 with sources := [], nextStartTime := 0,
             state := .LISTENING, mood := .NEUTRAL }

/-- The state after stopConversation(false) runs on st5. -/
def st5stopped : AppFull :=
  { st5 with sources := [], state := .IDLE, mood := .NEUTRAL }

/-- C2 counterexample: with the playback clock at 3, the interruption
handler resets nextStartTime to 0, not to the clock's current time 3; and
a full stop leaves nextStartTime at 5, resetting nothing. -/
theorem salin_C2_counterexample :
    step (Event.message msgInterruptOnly { ctxTime := 3, now := 0 }) st5
        = .ok (st5interrupted, []) ∧
    st5interrupted.nextStartTime = 0 ∧
    decide (st5interrupted.nextStartTime = (3 : ℚ)) = false ∧
    stopConversation false st5 = .ok (st5stopped, []) ∧
    st5stopped.nextStartTime = 5 ∧
    decide (st5stopped.nextStartTime = (3 : ℚ)) = false := by
  refine ⟨rfl, rfl, by decide, rfl, rfl, by decide⟩

theorem salin_C2_witness :
    eventDurNonneg Event.close = true ∧
    eventHasInterrupt Event.close = false ∧
    st5.nextStartTime ≤ (handleClose st5).nextStartTime := by
  have h := (salin_C2_cursor_monotone Event.close st5 (handleClose st5)
    initState [] [] false).1 rfl rfl
  exact ⟨rfl, rfl, h.1 rfl⟩

end Salin

namespace Salin

/-! ### C3: interruption handling -/

theorem all_started_iff (l : List SourceNode) :
    l.all (fun s => s.started) = true ↔ ∀ s ∈ l, s.started = true := by
  simp [List.all_eq_true]

theorem stopAllSources_ok (l : List SourceNode)
    (h : ∀ s ∈ l, s.started = true) :
    stopAllSources l = .ok (l.map stopNodeCaught) := by
  induction l with
  | nil => rfl
  | cons s rest ih =>
    have hs := h s (List.mem_cons_self s rest)
    have hrest := ih (fun x hx => h x (List.mem_cons_of_mem s hx))
    rw [stopAllSources, stopNode]
    rw [hs]
    simp only [if_pos, hrest, List.map_cons]
    rw [stopNodeCaught, stopNode, hs]
    simp

/-- C3 (amended): interruption force-stops every live source, empties the
live set, resets nextStartTime to 0 and enters LISTENING; the part_000
handler additionally resets the mood to NEUTRAL while the App.tsx handler
leaves the mood unchanged; a chunk scheduled afterwards starts at
max(0, currentPlaybackClockTime). -/
theorem salin_C3_interruption (st : AppFull) (t d : ℚ)
    (hs : st.sources.all (fun s => s.started) = true) :
    interruptedBranch st
        = .ok { st with sources := [], nextStartTime := 0,
                        state := .LISTENING, mood := .NEUTRAL } ∧
    interruptedBranchApp st
        = { st with sources := [], nextStartTime := 0,
                    state := .LISTENING } ∧
    (interruptedBranchApp st).mood = st.mood ∧
    schedStep 0 (t, d) = (max 0 t, max 0 t + d) := by
  refine ⟨?_, rfl, rfl, rfl⟩
  unfold interruptedBranch
  rw [stopAllSources_ok st.sources ((all_started_iff st.sources).mp hs)]

/-- C3 counterexample: in the App.tsx variant the interrupted handler does
not reset the mood — a HAPPY mood survives interruption. -/
theorem salin_C3_counterexample :
    (interruptedBranchApp { initState with mood := Mood.HAPPY }).mood
        = Mood.HAPPY ∧
    decide ((interruptedBranchApp { initState with mood := Mood.HAPPY }).mood
        = Mood.NEUTRAL) = false := by
  exact ⟨rfl, by decide⟩

/-- A speaking state with one finished live source and a nonzero cursor. -/
def stC3 : AppFull :=
  { initState with
    mood := Mood.ANGRY,
    sources := [{ started := true, ended := true, stopRequested := false,
                  scheduledStart := 0 }],
    nextStartTime := 2,
    state := AppState.SPEAKING }

theorem salin_C3_witness :
    interruptedBranch stC3
        = .ok { stC3 with sources := [], nextStartTime := 0,
                          state := .LISTENING, mood := .NEUTRAL } ∧
    schedStep 0 (2, 1) = (max 0 2, max 0 2 + 1) := by
  have h := salin_C3_interruption stC3 2 1 (by decide)
  exact ⟨h.1, h.2.2.2⟩

/-! ### C7: sleep trigger phrase -/

/-- A serverContent message carrying only an input-transcription fragment. -/
def msgInput (text : List Char) : ServerMessage :=
  { outputTranscription := none, inputTranscription := some text,
    audioData := none, turnComplete := false, interrupted := false }

/-- C7: an input fragment whose lower-cased text contains a trigger phrase
schedules stopConversation(true) after 3000 ms; when that fires the state
becomes SLEEP with a 5000 ms wake timer; when the wake timer fires the
state becomes IDLE and the mood resets to NEUTRAL. -/
theorem salin_C7_sleep_trigger (st st2 st3 : AppFull) (text : List Char)
    (env : Env)
    (htrig : containsSub (lower text) salamatSalin = true
        ∨ containsSub (lower text) thankYouSalin = true)
    (hs : st2.sources.all (fun s => s.started) = true) :
    step (Event.message (msgInput text) env) st
        = .ok ({ st with
            currentInputTranscription :=
              st.currentInputTranscription ++ text,
            state := .LISTENING }, [(3000, TimerAction.forceSleepStop)]) ∧
    fireTimer .forceSleepStop st2
        = .ok ({ st2 with sources := [], state := .SLEEP },
               [(5000, TimerAction.wakeFromSleep)]) ∧
    fireTimer .wakeFromSleep st3
        = .ok ({ st3 with state := .IDLE, mood := .NEUTRAL }, []) := by
  have hcond : (containsSub (lower text) salamatSalin
      || containsSub (lower text) thankYouSalin) = true := by
    rcases htrig with h | h <;> simp [h]
  refine ⟨?_, ?_, rfl⟩
  · show handleMessage (msgInput text) env st = _
    unfold handleMessage preAudio msgInput
    simp only [inputBranch, hcond, if_pos]
    rfl
  · show stopConversation true st2 = _
    unfold stopConversation
    rw [stopAllSources_ok st2.sources ((all_started_iff st2.sources).mp hs)]
    rfl

theorem salin_C7_witness :
    step (Event.message (msgInput ("thank you salin".data))
        { ctxTime := 0, now := 0 }) initState
      = .ok ({ initState with
               currentInputTranscription :=
                 initState.currentInputTranscription
                   ++ "thank you salin".data,
               state := .LISTENING }, [(3000, TimerAction.forceSleepStop)]) ∧
    fireTimer .forceSleepStop initState
      = .ok ({ initState with sources := [], state := .SLEEP },
             [(5000, TimerAction.wakeFromSleep)]) ∧
    fireTimer .wakeFromSleep { initState with state := AppState.SLEEP }
      = .ok ({ { initState with state := AppState.SLEEP } with
               state := .IDLE, mood := .NEUTRAL }, []) := by
  have h := salin_C7_sleep_trigger initState initState
    { initState with state := AppState.SLEEP } ("thank you salin".data)
    { ctxTime := 0, now := 0 } (Or.inr (by decide)) (by decide)
  exact ⟨h.1, h.2.1, h.2.2⟩

end Salin

namespace Salin

/-! ### C9, C10: reachability invariants -/

theorem outputBranch_sources (st : AppFull) (text : List Char) :
    (outputBranch st text).sources = st.sources := rfl

theorem outputBranch_transcripts (st : AppFull) (text : List Char) :
    (outputBranch st text).transcripts = st.transcripts := rfl

theorem inputBranch_sources (st : AppFull) (text : List Char) :
    (inputBranch st text).1.sources = st.sources := by
  unfold inputBranch
  dsimp only
  split <;> rfl

theorem inputBranch_transcripts (st : AppFull) (text : List Char) :
    (inputBranch st text).1.transcripts = st.transcripts := by
  unfold inputBranch
  dsimp only
  split <;> rfl

theorem turnCompleteBranch_sources (st : AppFull) (now : Int) :
    (turnCompleteBranch st now).sources = st.sources := by
  unfold turnCompleteBranch
  dsimp only
  split <;> rfl

theorem audioBranch_sources (st : AppFull) (t d : ℚ) :
    (audioBranch st t d).sources
      = st.sources
        ++ [{ started := true, ended := false, stopRequested := false,
              scheduledStart := max st.nextStartTime t }] := rfl

theorem audioBranch_transcripts (st : AppFull) (t d : ℚ) :
    (audioBranch st t d).transcripts = st.transcripts := rfl

theorem preAudio_sources (msg : ServerMessage) (env : Env) (st : AppFull) :
    (preAudio msg env st).1.sources = st.sources := by
  unfold preAudio
  dsimp only
  cases msg.outputTranscription with
  | some t =>
    cases msg.turnComplete <;>
      simp [turnCompleteBranch_sources, outputBranch_sources]
  | none =>
    cases msg.inputTranscription with
    | some t =>
      cases msg.turnComplete <;>
        simp [turnCompleteBranch_sources, inputBranch_sources]
    | none =>
      cases msg.turnComplete <;> simp [turnCompleteBranch_sources]

theorem turnCompleteBranch_transcripts_mem (st : AppFull) (now : Int) :
    ∀ en ∈ (turnCompleteBranch st now).transcripts,
      en ∈ st.transcripts ∨ en.role = Role.model := by
  intro en hen
  rw [turnCompleteBranch_transcripts] at hen
  split at hen
  · exact Or.inl hen
  · rcases List.mem_append.mp hen with h | h
    · exact Or.inl h
    · right
      simp only [List.mem_singleton] at h
      rw [h]

theorem preAudio_transcripts_mem (msg : ServerMessage) (env : Env)
    (st : AppFull) :
    ∀ en ∈ (preAudio msg env st).1.transcripts,
      en ∈ st.transcripts ∨ en.role = Role.model := by
  intro en hen
  unfold preAudio at hen
  dsimp only at hen
  cases ho : msg.outputTranscription with
  | some t =>
    rw [ho] at hen
    cases htc : msg.turnComplete <;> rw [htc] at hen
    · simp only [Bool.false_eq_true, if_false] at hen
      rw [outputBranch_transcripts] at hen
      exact Or.inl hen
    · simp only [if_pos] at hen
      rcases turnCompleteBranch_transcripts_mem _ _ en hen with h | h
      · rw [outputBranch_transcripts] at h
        exact Or.inl h
      · exact Or.inr h
  | none =>
    rw [ho] at hen
    cases hin : msg.inputTranscription with
    | some t =>
      rw [hin] at hen
      cases htc : msg.turnComplete <;> rw [htc] at hen
      · simp only [Bool.false_eq_true, if_false] at hen
        rw [inputBranch_transcripts] at hen
        exact Or.inl hen
      · simp only [if_pos] at hen
        rcases turnCompleteBranch_transcripts_mem _ _ en hen with h | h
        · rw [inputBranch_transcripts] at h
          exact Or.inl h
        · exact Or.inr h
    | none =>
      rw [hin] at hen
      cases htc : msg.turnComplete <;> rw [htc] at hen
      · simp only [Bool.false_eq_true, if_false] at hen
        exact Or.inl hen
      · simp only [if_pos] at hen
        rcases turnCompleteBranch_transcripts_mem _ _ en hen with h | h
        · exact Or.inl h
        · exact Or.inr h

theorem step_preserves (e : Event) (st st2 : AppFull)
    (tm : List (Nat × TimerAction)) (h : step e st = .ok (st2, tm))
    (hs : ∀ s ∈ st.sources, s.started = true)
    (ht : ∀ en ∈ st.transcripts, en.role = Role.model) :
    (∀ s ∈ st2.sources, s.started = true) ∧
    (∀ en ∈ st2.transcripts, en.role = Role.model) := by
  cases e with
  | message msg env =>
    cases hi : msg.interrupted with
    | true =>
      obtain ⟨_, h2, _, _, h5, _⟩ :=
        handleMessage_interrupted msg env st st2 tm hi h
      constructor
      · rw [h2]
        intro s hs2
        cases hs2
      · rw [h5]
        intro en hen
        rcases preAudio_transcripts_mem msg env st en hen with h6 | h6
        · exact ht en h6
        · exact h6
    | false =>
      obtain ⟨h1, _⟩ := handleMessage_not_interrupted msg env st st2 tm hi h
      cases ha : msg.audioData with
      | none =>
        rw [ha] at h1
        constructor
        · rw [h1, preAudio_sources]
          exact hs
        · rw [h1]
          intro en hen
          rcases preAudio_transcripts_mem msg env st en hen with h6 | h6
          · exact ht en h6
          · exact h6
      | some d =>
        rw [ha] at h1
        constructor
        · rw [h1]
          intro s hs2
          rw [audioBranch_sources] at hs2
          rcases List.mem_append.mp hs2 with h6 | h6
          · rw [preAudio_sources] at h6
            exact hs s h6
          · simp only [List.mem_singleton] at h6
            rw [h6]
        · rw [h1]
          intro en hen
          rw [audioBranch_transcripts] at hen
          rcases preAudio_transcripts_mem msg env st en hen with h6 | h6
          · exact ht en h6
          · exact h6
  | sourceEnded i =>
    simp only [step, handleSourceEnded, Except.ok.injEq,
      Prod.mk.injEq] at h
    rw [← h.1]
    exact ⟨fun s hs2 => hs s (List.eraseIdx_subset st.sources i hs2), ht⟩
  | fire a =>
    cases a with
    | forceSleepStop =>
      simp only [step, fireTimer] at h
      obtain ⟨_, h2, h3, _⟩ := stopConversation_ok true st st2 tm h
      rw [h2, h3]
      exact ⟨fun s hs2 => absurd hs2 (List.not_mem_nil s), ht⟩
    | wakeFromSleep =>
      simp only [step, fireTimer, Except.ok.injEq, Prod.mk.injEq] at h
      rw [← h.1]
      exact ⟨hs, ht⟩
    | listenDebounce =>
      simp only [step, fireTimer] at h
      split at h <;>
        simp only [Except.ok.injEq, Prod.mk.injEq] at h <;>
        rw [← h.1] <;> exact ⟨hs, ht⟩
  | close =>
    simp only [step, Except.ok.injEq, Prod.mk.injEq] at h
    rw [← h.1]
    unfold handleClose
    split
    · exact ⟨hs, ht⟩
    · exact ⟨hs, ht⟩
  | channelError =>
    simp only [step, handleChannelError, Except.ok.injEq,
      Prod.mk.injEq] at h
    rw [← h.1]
    exact ⟨hs, ht⟩
  | clearTranscripts =>
    simp only [step, Except.ok.injEq, Prod.mk.injEq] at h
    rw [← h.1]
    exact ⟨hs, fun en hen => by cases hen⟩
  | stopButton =>
    simp only [step] at h
    obtain ⟨_, h2, h3, _⟩ := stopConversation_ok false st st2 tm h
    rw [h2, h3]
    exact ⟨fun s hs2 => absurd hs2 (List.not_mem_nil s), ht⟩
  | startPressed =>
    simp only [step, Except.ok.injEq, Prod.mk.injEq] at h
    rw [← h.1]
    exact ⟨hs, ht⟩
  | opened =>
    simp only [step, Except.ok.injEq, Prod.mk.injEq] at h
    rw [← h.1]
    exact ⟨hs, ht⟩
  | startFailed m =>
    simp only [step, Except.ok.injEq, Prod.mk.injEq] at h
    rw [← h.1]
    exact ⟨hs, ht⟩

theorem run_preserves (evts : List Event) :
    ∀ (st st2 : AppFull), run evts st = .ok st2 →
      (∀ s ∈ st.sources, s.started = true) →
      (∀ en ∈ st.transcripts, en.role = Role.model) →
      (∀ s ∈ st2.sources, s.started = true) ∧
      (∀ en ∈ st2.transcripts, en.role = Role.model) := by
  induction evts with
  | nil =>
    intro st st2 h hs ht
    simp only [run, Except.ok.injEq] at h
    rw [← h]
    exact ⟨hs, ht⟩
  | cons e es ih =>
    intro st st2 h hs ht
    rw [run] at h
    cases hst : step e st with
    | error er => rw [hst] at h; cases h
    | ok r =>
      rw [hst] at h
      obtain ⟨hs2, ht2⟩ := step_preserves e st r.1 r.2 (by rw [hst]) hs ht
      exact ih r.1 st2 h hs2 ht2

theorem step_isOk (e : Event) (st : AppFull)
    (hs : ∀ s ∈ st.sources, s.started = true) :
    exceptIsOk (step e st) = true := by
  cases e with
  | message msg env =>
    show exceptIsOk (handleMessage msg env st) = true
    unfold handleMessage
    dsimp only
    cases hi : msg.interrupted with
    | false => rfl
    | true =>
      simp only [if_pos]
      have hst3 : ∀ s ∈
          (match msg.audioData with
           | some d => audioBranch (preAudio msg env st).1 env.ctxTime d
           | none => (preAudio msg env st).1).sources, s.started = true := by
        cases ha : msg.audioData with
        | none =>
          intro s hs2
          rw [preAudio_sources] at hs2
          exact hs s hs2
        | some d =>
          intro s hs2
          rw [audioBranch_sources] at hs2
          rcases List.mem_append.mp hs2 with h6 | h6
          · rw [preAudio_sources] at h6
            exact hs s h6
          · simp only [List.mem_singleton] at h6
            rw [h6]
      unfold interruptedBranch
      rw [stopAllSources_ok _ hst3]
      rfl
  | sourceEnded i => rfl
  | fire a =>
    cases a with
    | forceSleepStop =>
      show exceptIsOk (stopConversation true st) = true
      unfold stopConversation
      rw [stopAllSources_ok st.sources hs]
      rfl
    | wakeFromSleep => rfl
    | listenDebounce =>
      show exceptIsOk (fireTimer .listenDebounce st) = true
      simp only [fireTimer]
      split <;> rfl
  | close => rfl
  | channelError => rfl
  | clearTranscripts => rfl
  | stopButton =>
    show exceptIsOk (stopConversation false st) = true
    unfold stopConversation
    rw [stopAllSources_ok st.sources hs]
    rfl
  | startPressed => rfl
  | opened => rfl
  | startFailed m => rfl

/-- C9: in every reachable state all live sources have been started (so the
set may contain finished or already-stopped sources, but never an
unstarted one); force-stopping such a set succeeds and equals the
caught-stop version App.tsx uses; and from a reachable state no event
handler — interruption and teardown included — propagates a stop error. -/
theorem salin_C9_stop_idempotent (evts : List Event) (st2 : AppFull)
    (e : Event) (l : List SourceNode)
    (hrun : run evts initState = .ok st2)
    (hl : l.all (fun s => s.started) = true) :
    st2.sources.all (fun s => s.started) = true ∧
    stopAllSources l = .ok (stopAllSourcesCaught l) ∧
    exceptIsOk (step e st2) = true := by
  obtain ⟨hs, _⟩ := run_preserves evts initState st2 hrun
    (by intro s hs2; cases hs2) (by intro en hen; cases hen)
  refine ⟨(all_started_iff st2.sources).mpr hs, ?_, step_isOk e st2 hs⟩
  exact stopAllSources_ok l ((all_started_iff l).mp hl)

theorem salin_C9_witness :
    initState.sources.all (fun s => s.started) = true ∧
    stopAllSources
        [{ started := true, ended := true, stopRequested := true,
           scheduledStart := 0 }]
      = .ok (stopAllSourcesCaught
        [{ started := true, ended := true, stopRequested := true,
           scheduledStart := 0 }]) ∧
    exceptIsOk (step Event.stopButton initState) = true := by
  exact salin_C9_stop_idempotent [] initState Event.stopButton
    [{ started := true, ended := true, stopRequested := true,
       scheduledStart := 0 }] rfl (by decide)

/-- C10: every transcript entry any reachable state holds has role model —
no user-role entry is ever created — so the Transcript view's model-role
filter returns the stored list unchanged. -/
theorem salin_C10_transcript_roles (evts : List Event) (st2 : AppFull)
    (hrun : run evts initState = .ok st2) :
    st2.transcripts.all (fun en => isModelRole en.role) = true ∧
    translationsView st2.transcripts = st2.transcripts := by
  obtain ⟨_, ht⟩ := run_preserves evts initState st2 hrun
    (by intro s hs2; cases hs2) (by intro en hen; cases hen)
  constructor
  · rw [List.all_eq_true]
    intro en hen
    rw [ht en hen]
    rfl
  · unfold translationsView
    apply List.filter_eq_self.mpr
    intro en hen
    rw [ht en hen]
    rfl

/-- A message that accumulates output text and completes the turn. -/
def msgC10w : ServerMessage :=
  { outputTranscription := some ("hi".data), inputTranscription := none,
    audioData := none, turnComplete := true, interrupted := false }

/-- The state after msgC10w is processed from the initial state. -/
def stC10 : AppFull :=
  { initState with
    state := .LISTENING,
    transcripts := [{ role := .model, text := "hi".data, timestamp := 0 }] }

theorem salin_C10_witness :
    run [Event.message msgC10w { ctxTime := 0, now := 0 }] initState
        = .ok stC10 ∧
    stC10.transcripts.all (fun en => isModelRole en.role) = true ∧
    translationsView stC10.transcripts = stC10.transcripts := by
  have h := salin_C10_transcript_roles
    [Event.message msgC10w { ctxTime := 0, now := 0 }] stC10 (by rfl)
  exact ⟨by rfl, h.1, h.2⟩

end Salin

namespace Salin

/-! ### C6: PCM codec round trip (spec-modelled) -/

theorem bytes_roundtrip (i : ℤ) (h1 : -32768 ≤ i) (h2 : i ≤ 32767) :
    bytesToInt16LE (int16ToBytesLE i) = i := by
  unfold bytesToInt16LE int16ToBytesLE
  dsimp only
  split <;> omega

/-- C6: encoding a sample in [-1, 1], packing it as two little-endian
bytes, reading it back and decoding recovers the sample within one
quantization step (1/32768); encoding always lands in the signed 16-bit
range, and samples outside [-1, 1] clamp to the extremes instead of
overflowing. -/
theorem salin_C6_codec_roundtrip (s : ℚ) :
    (-1 ≤ s → s ≤ 1 →
      |decodeSample (bytesToInt16LE (int16ToBytesLE (encodeSample s))) - s|
        ≤ 1 / 32768) ∧
    (-32768 ≤ encodeSample s ∧ encodeSample s ≤ 32767) ∧
    (1 < s → encodeSample s = 32767) ∧
    (s < -1 → encodeSample s = -32768) := by
  have hlow : (-32768 : ℤ) ≤ encodeSample s := le_max_left _ _
  have hup : encodeSample s ≤ 32767 :=
    max_le (by norm_num) (min_le_left _ _)
  refine ⟨?_, ⟨hlow, hup⟩, ?_, ?_⟩
  · intro h1 h2
    rw [bytes_roundtrip (encodeSample s) hlow hup]
    have hxlow : (-32768 : ℚ) ≤ s * 32768 := by linarith
    have hxup : s * 32768 ≤ 32768 := by linarith
    have hflow : (-32768 : ℤ) ≤ ⌊s * 32768⌋ := by
      apply Int.le_floor.mpr
      push_cast
      exact hxlow
    have henc : encodeSample s = min 32767 ⌊s * 32768⌋ := by
      unfold encodeSample
      exact max_eq_right (le_min (by norm_num) hflow)
    rw [henc]
    unfold decodeSample
    by_cases hcase : ⌊s * 32768⌋ ≤ 32767
    · rw [min_eq_right hcase]
      have hfl : ((⌊s * 32768⌋ : ℤ) : ℚ) ≤ s * 32768 := Int.floor_le _
      have hfu : s * 32768 < ((⌊s * 32768⌋ : ℤ) : ℚ) + 1 :=
        Int.lt_floor_add_one _
      rw [abs_le]
      constructor <;> linarith
    · push_neg at hcase
      have h1f : (32767 : ℤ) ≤ ⌊s * 32768⌋ := le_of_lt hcase
      rw [min_eq_left h1f]
      have h328 : (32768 : ℚ) ≤ s * 32768 := by
        have hle : (32768 : ℤ) ≤ ⌊s * 32768⌋ := hcase
        have hfl := Int.floor_le (s * 32768)
        have hcast : ((32768 : ℤ) : ℚ) ≤ ((⌊s * 32768⌋ : ℤ) : ℚ) :=
          Int.cast_le.mpr hle
        push_cast at hcast
        linarith
      have hs1 : s = 1 := by linarith
      rw [hs1]
      push_cast
      rw [abs_le]
      constructor <;> norm_num
  · intro h1
    have h328 : (32768 : ℚ) ≤ s * 32768 := by linarith
    have h2f : (32768 : ℤ) ≤ ⌊s * 32768⌋ := by
      apply Int.le_floor.mpr
      push_cast
      exact h328
    unfold encodeSample
    rw [min_eq_left (by omega : (32767 : ℤ) ≤ ⌊s * 32768⌋)]
    exact max_eq_right (by norm_num)
  · intro h1
    have hf : ⌊s * 32768⌋ < -32768 := by
      apply Int.floor_lt.mpr
      push_cast
      linarith
    unfold encodeSample
    rw [min_eq_right (by omega : ⌊s * 32768⌋ ≤ 32767)]
    exact max_eq_left (by omega)

theorem salin_C6_witness :
    (-1 : ℚ) ≤ mkRat 1 3 ∧ mkRat 1 3 ≤ 1 ∧
    |decodeSample (bytesToInt16LE (int16ToBytesLE
        (encodeSample (mkRat 1 3)))) - mkRat 1 3| ≤ 1 / 32768 := by
  have h := (salin_C6_codec_roundtrip (mkRat 1 3)).1 (by decide) (by decide)
  exact ⟨by decide, by decide, h⟩

end Salin
